import Mathlib

/-!
Verification of the `digit-sequence` crate: a shallow embedding in Lean 4 of
the crate's core logic, together with theorems about its behaviour.

Modelling conventions:
* `u8` digits are modelled as `Nat`; machine integers of unsigned width `w`
  are `Nat` values below `2 ^ w`, with every checked operation made explicit.
* Signed integers are modelled as `Int` (every `as i128` widening of a
  narrower signed value is lossless, so a single `Int` model covers all
  signed source widths `i8, i16, i32, i64, i128, isize`).
* `usize` is modelled as the 64-bit unsigned width.
* Rust's `Result<T, CrateError>` is the inductive `CrateResult` below.
* Loops are rendered as structural or well-founded recursion that performs
  the same sequence of checks in the same order.
-/

namespace DigitSeq

/-- Embeds `CrateError` from `src/result.rs`: the closed error taxonomy. -/
inductive CrateError where
  | NonDigitChar (c : Char)
  | NonDigitNumber (n : Nat)
  | NegativeNumber (i : Int)
  | Overflow
deriving DecidableEq, Repr

/-- Embeds `CrateResult<T> = Result<T, CrateError>` from `src/result.rs`. -/
inductive CrateResult (α : Type) where
  | ok (value : α)
  | error (e : CrateError)
deriving DecidableEq, Repr

/-- Embeds `DigitSequence(Vec<u8>)` from `src/lib.rs`: the wrapped vector of
`u8` digits, in most-significant-first storage order. -/
structure DigitSequence where
  digits : List Nat
deriving DecidableEq, Repr

/-- The `do`-while loop of `convert_from_positive!` in
`src/integers/from_ints.rs`: pushes `current_value % 10`, divides by 10,
and stops once the quotient is zero (so the loop always runs at least once).
Produces the digits least-significant first, exactly as `reversed_digits`.
The `fuel` argument only makes the recursion structural; `revDigits` hands
in fuel `n + 1`, which `revDigitsGo_fuel_irrelevant` below proves is never
exhausted, so the `fuel = 0` branch is unreachable and the function computes
exactly the loop. -/
def revDigitsGo : Nat → Nat → List Nat
  | 0, _ => []
  | fuel + 1, n => if n / 10 = 0 then [n % 10] else n % 10 :: revDigitsGo fuel (n / 10)

/-- The digit loop at its (sufficient) fuel. -/
def revDigits (n : Nat) : List Nat :=
  revDigitsGo (n + 1) n

/-- Embeds `convert_from_positive!` from `src/integers/from_ints.rs`:
collects the reversed digits and reverses them into storage order. The digit
arithmetic (`% 10`, `/= 10`, `as u8`) is width-independent and lossless, so
one `Nat` function covers every unsigned source width. -/
def convert_from_positive (n : Nat) : DigitSequence :=
  ⟨(revDigits n).reverse⟩

/-- Embeds `impl_try_from_signed!` from `src/integers/from_ints.rs`:
a negative value is rejected as `NegativeNumber(value as i128)` (lossless
sign-extending widening); otherwise the unsigned algorithm runs on the
(non-negative) value. -/
def try_from_signed (v : Int) : CrateResult DigitSequence :=
  if v < 0 then .error (.NegativeNumber v)
  else .ok (convert_from_positive v.toNat)

/-- The loop of `TryFrom<&DigitSequence> for $type` in
`src/integers/to_ints.rs`, for unsigned target width `w` (max value
`2 ^ w - 1`): the digits arrive least-significant first (`.iter().rev()`)
with their enumeration index `i`; each step
(1) converts the `usize` index to `u32` (`Overflow` when `i > u32::MAX`),
(2) computes `10.checked_pow(i)` (`Overflow` when `10 ^ i` exceeds the width),
(3) computes `digit.checked_mul(magnitude)` with the same check,
(4) computes `result.checked_add(term)` with the same check. -/
def try_to_unsigned_aux (w : Nat) : Nat → Nat → List Nat → CrateResult Nat
  | acc, _, [] => .ok acc
  | acc, i, d :: rest =>
    if 2 ^ 32 ≤ i then .error .Overflow
    else if 2 ^ w - 1 < 10 ^ i then .error .Overflow
    else if 2 ^ w - 1 < d * 10 ^ i then .error .Overflow
    else if 2 ^ w - 1 < acc + d * 10 ^ i then .error .Overflow
    else try_to_unsigned_aux w (acc + d * 10 ^ i) (i + 1) rest

/-- Embeds `TryFrom<&DigitSequence> for $type` from `src/integers/to_ints.rs`
(the by-value impl delegates to it): accumulate over the reversed digit list
starting from `result = 0` at index 0. -/
def try_to_unsigned (w : Nat) (s : DigitSequence) : CrateResult Nat :=
  try_to_unsigned_aux w 0 0 s.digits.reverse

/-- Embeds `TryFrom<&[u8]> for DigitSequence` from `src/slices.rs` (arrays in
`src/arrays.rs` and vectors in `src/vecs.rs` delegate to this impl): scan
left to right, rejecting the first element `>= 10` as
`NonDigitNumber(digit as u128)` (lossless widening), otherwise pushing it. -/
def try_from_slice : List Nat → CrateResult DigitSequence
  | [] => .ok ⟨[]⟩
  | d :: rest =>
    if 10 ≤ d then .error (.NonDigitNumber d)
    else
      match try_from_slice rest with
      | .ok s => .ok ⟨d :: s.digits⟩
      | .error e => .error e

/-- Embeds `char::to_digit(10)` as used by `src/strings.rs`: `some` of the
digit value exactly for the ten ASCII characters `'0'..'9'` (code points
48..57), `none` otherwise. -/
def char_to_digit10 (c : Char) : Option Nat :=
  if 48 ≤ c.toNat ∧ c.toNat ≤ 57 then some (c.toNat - 48) else none

/-- Embeds `FromStr for DigitSequence` from `src/strings.rs`: scan the
characters left to right, mapping each through `to_digit(10)` and failing
with `NonDigitChar` on the first character that is not a decimal digit. -/
def from_str : List Char → CrateResult DigitSequence
  | [] => .ok ⟨[]⟩
  | c :: rest =>
    match char_to_digit10 c with
    | some d =>
      match from_str rest with
      | .ok s => .ok ⟨d :: s.digits⟩
      | .error e => .error e
    | none => .error (.NonDigitChar c)

/-- Embeds the derived `Ord` of `DigitSequence(Vec<u8>)` from `src/lib.rs`:
the derived ordering compares the single `Vec<u8>` field, and `Vec`'s `Ord`
is lexicographic: the first differing element decides, otherwise the shorter
list is smaller. -/
def digitsCompare : List Nat → List Nat → Ordering
  | [], [] => .eq
  | [], _ :: _ => .lt
  | _ :: _, [] => .gt
  | a :: as1, b :: bs1 =>
    match compare a b with
    | .eq => digitsCompare as1 bs1
    | o => o

/-- The derived `Ord::cmp` on `DigitSequence` values. -/
def seqCompare (a b : DigitSequence) : Ordering :=
  digitsCompare a.digits b.digits

/-- Embeds the decimal rendering of one `u8` value by Rust's `Display`
(`write!("{}", digit)`): its base-10 digits, most significant first. -/
def natRepr (n : Nat) : List Char :=
  (revDigits n).reverse.map Nat.digitChar

/-- Embeds `Display for DigitSequence` from `src/digit_sequence.rs`: the
digits are written one after the other, each through `u8`'s `Display`, with
no separators. -/
def renderDigits : List Nat → List Char
  | [] => []
  | d :: rest => natRepr d ++ renderDigits rest

/-- The rendered text of a sequence. -/
def render (s : DigitSequence) : List Char :=
  renderDigits s.digits

/-- The crate-wide invariant: every stored digit is in `[0, 9]`. Every
`DigitSequence` produced by the public constructors satisfies it. -/
def wellFormed (s : DigitSequence) : Prop :=
  ∀ d ∈ s.digits, d < 10

/-- The numeric value of a least-significant-first digit list, with every
position shifted up by `i`: `Σ_j l_j * 10 ^ (i + j)`. -/
def shiftValue (i : Nat) : List Nat → Nat
  | [] => 0
  | d :: rest => d * 10 ^ i + shiftValue (i + 1) rest

/-- The numeric value of a most-significant-first digit list, by positional
accumulation. -/
def digitsValue (l : List Nat) : Nat :=
  l.foldl (fun a d => 10 * a + d) 0

/-- The ordering described by the specification: `xs` comes strictly before
`ys` when `xs` is a proper prefix of `ys`, or at the first differing
position the digit of `xs` is smaller. -/
def LexSpec (xs ys : List Nat) : Prop :=
  ((∃ t, ys = xs ++ t) ∧ xs ≠ ys) ∨
    ∃ p a b s1 s2, xs = p ++ a :: s1 ∧ ys = p ++ b :: s2 ∧ a < b

theorem revDigitsGo_fuel_irrelevant :
    ∀ f1 f2 n, n < f1 → n < f2 → revDigitsGo f1 n = revDigitsGo f2 n := by
  intro f1
  induction f1 with
  | zero => intro f2 n h1; omega
  | succ f ih =>
    intro f2 n h1 h2
    cases f2 with
    | zero => omega
    | succ f2 =>
      simp only [revDigitsGo]
      by_cases h : n / 10 = 0
      · simp [h]
      · have hn : n ≠ 0 := by intro h0; exact h (by simp [h0])
        have hlt : n / 10 < n := Nat.div_lt_self (Nat.pos_of_ne_zero hn) (by decide)
        simp only [h, if_false]
        rw [ih f2 (n / 10) (by omega) (by omega)]

theorem revDigits_unfold (n : Nat) :
    revDigits n = if n / 10 = 0 then [n % 10] else n % 10 :: revDigits (n / 10) := by
  have e1 : revDigits n = if n / 10 = 0 then [n % 10] else n % 10 :: revDigitsGo n (n / 10) :=
    rfl
  rw [e1]
  by_cases h : n / 10 = 0
  · simp [h]
  · have hn : n ≠ 0 := by intro h0; exact h (by simp [h0])
    have hlt : n / 10 < n := Nat.div_lt_self (Nat.pos_of_ne_zero hn) (by decide)
    simp only [h, if_false]
    rw [revDigitsGo_fuel_irrelevant n (n / 10 + 1) (n / 10) (by omega) (by omega)]
    rfl

theorem revDigits_eq_digits {n : Nat} (hn : n ≠ 0) : revDigits n = Nat.digits 10 n := by
  induction n using Nat.strong_induction_on with
  | _ n ih =>
    rw [revDigits_unfold]
    by_cases h : n / 10 = 0
    · have hlt : n < 10 := by
        rcases Nat.lt_or_ge n 10 with h1 | h1
        · exact h1
        · exact absurd h (by
            have : 1 ≤ n / 10 := (Nat.le_div_iff_mul_le (by decide)).mpr (by omega)
            omega)
      rw [h, if_pos rfl, Nat.digits_of_lt 10 n hn hlt, Nat.mod_eq_of_lt hlt]
    · have hpos : 0 < n := Nat.pos_of_ne_zero hn
      have hdiv : n / 10 < n := Nat.div_lt_self hpos (by decide)
      rw [if_neg h, Nat.digits_def' (by decide : 1 < 10) hpos, ih (n / 10) hdiv h]

theorem revDigits_zero : revDigits 0 = [0] := rfl

theorem mem_revDigits_lt {n d : Nat} (hd : d ∈ revDigits n) : d < 10 := by
  rcases Nat.eq_zero_or_pos n with rfl | hn
  · rw [revDigits_zero] at hd; simp at hd; omega
  · rw [revDigits_eq_digits (Nat.pos_iff_ne_zero.mp hn)] at hd
    exact Nat.digits_lt_base (by decide) hd

theorem revDigits_ne_nil (n : Nat) : revDigits n ≠ [] := by
  rcases Nat.eq_zero_or_pos n with rfl | hn
  · rw [revDigits_zero]; simp
  · rw [revDigits_eq_digits (Nat.pos_iff_ne_zero.mp hn)]
    exact Nat.digits_ne_nil_iff_ne_zero.mpr (Nat.pos_iff_ne_zero.mp hn)

theorem shiftValue_eq (l : List Nat) : ∀ i, shiftValue i l = 10 ^ i * Nat.ofDigits 10 l := by
  induction l with
  | nil => intro i; simp [shiftValue, Nat.ofDigits_nil]
  | cons d rest ih =>
    intro i
    simp only [shiftValue, Nat.ofDigits_cons, ih (i + 1)]
    ring

theorem shiftValue_revDigits (n : Nat) : shiftValue 0 (revDigits n) = n := by
  rcases Nat.eq_zero_or_pos n with rfl | hn
  · rw [revDigits_zero]; simp [shiftValue]
  · rw [revDigits_eq_digits (Nat.pos_iff_ne_zero.mp hn), shiftValue_eq, pow_zero, one_mul,
      Nat.ofDigits_digits]

theorem ten_pow_pred_le {n : Nat} (hn : n ≠ 0) : 10 ^ ((revDigits n).length - 1) ≤ n := by
  rw [revDigits_eq_digits hn]
  have hne : Nat.digits 10 n ≠ [] := Nat.digits_ne_nil_iff_ne_zero.mpr hn
  have hlen : 1 ≤ (Nat.digits 10 n).length := List.length_pos.mpr hne
  have h10 : 10 ^ (Nat.digits 10 n).length ≤ 10 * n :=
    Nat.base_pow_length_digits_le 10 n (by decide) hn
  have : 10 * 10 ^ ((Nat.digits 10 n).length - 1) ≤ 10 * n := by
    calc 10 * 10 ^ ((Nat.digits 10 n).length - 1)
        = 10 ^ ((Nat.digits 10 n).length - 1 + 1) := by ring
      _ = 10 ^ (Nat.digits 10 n).length := by congr 1; omega
      _ ≤ 10 * n := h10
  omega

theorem revDigits_length_le {n w : Nat} (hw : 0 < w) (hn : n < 2 ^ w) :
    (revDigits n).length ≤ w := by
  rcases Nat.eq_zero_or_pos n with rfl | hpos
  · rw [revDigits_zero]; simpa using hw
  · have h1 : 10 ^ ((revDigits n).length - 1) ≤ n := ten_pow_pred_le (Nat.pos_iff_ne_zero.mp hpos)
    have h2 : 2 ^ ((revDigits n).length - 1) ≤ 10 ^ ((revDigits n).length - 1) :=
      Nat.pow_le_pow_left (by decide) _
    have h3 : 2 ^ ((revDigits n).length - 1) < 2 ^ w := by omega
    have h4 : (revDigits n).length - 1 < w := (Nat.pow_lt_pow_iff_right (by decide)).mp h3
    have h5 := revDigits_ne_nil n
    have : 1 ≤ (revDigits n).length := by
      cases h : revDigits n with
      | nil => exact absurd h h5
      | cons a l => simp
    omega

theorem try_to_unsigned_aux_ok (w : Nat) :
    ∀ (l : List Nat) (acc i : Nat),
      i + l.length ≤ 2 ^ 32 →
      (∀ j, j < l.length → 10 ^ (i + j) ≤ 2 ^ w - 1) →
      acc + shiftValue i l ≤ 2 ^ w - 1 →
      try_to_unsigned_aux w acc i l = .ok (acc + shiftValue i l) := by
  intro l
  induction l with
  | nil => intro acc i _ _ _; simp [try_to_unsigned_aux, shiftValue]
  | cons d rest ih =>
    intro acc i hlen hpow hval
    have hsv : shiftValue i (d :: rest) = d * 10 ^ i + shiftValue (i + 1) rest := rfl
    have hi : ¬ 2 ^ 32 ≤ i := by simp only [List.length_cons] at hlen; omega
    have hp : ¬ 2 ^ w - 1 < 10 ^ i := by
      have := hpow 0 (by simp)
      simp at this
      omega
    have hm : ¬ 2 ^ w - 1 < d * 10 ^ i := by rw [hsv] at hval; omega
    have ha : ¬ 2 ^ w - 1 < acc + d * 10 ^ i := by rw [hsv] at hval; omega
    simp only [try_to_unsigned_aux, hi, hp, hm, ha, if_false]
    rw [ih (acc + d * 10 ^ i) (i + 1)
      (by simp only [List.length_cons] at hlen; omega)
      (by
        intro j hj
        have := hpow (j + 1) (by simp; omega)
        have he : i + (j + 1) = i + 1 + j := by omega
        rwa [he] at this)
      (by rw [hsv] at hval; omega)]
    rw [hsv]
    congr 1
    omega

theorem try_to_unsigned_aux_le (w : Nat) :
    ∀ (l : List Nat) (acc i a : Nat), acc ≤ 2 ^ w - 1 →
      try_to_unsigned_aux w acc i l = .ok a → a ≤ 2 ^ w - 1 := by
  intro l
  induction l with
  | nil =>
    intro acc i a hacc h
    simp only [try_to_unsigned_aux] at h
    cases h
    exact hacc
  | cons d rest ih =>
    intro acc i a hacc h
    simp only [try_to_unsigned_aux] at h
    split at h
    · cases h
    split at h
    · cases h
    split at h
    · cases h
    split at h
    · cases h
    rename_i h1 h2 h3 h4
    exact ih (acc + d * 10 ^ i) (i + 1) a (by omega) h

theorem try_to_unsigned_aux_append_ok (w : Nat) :
    ∀ (l1 l2 : List Nat) (acc i a : Nat),
      try_to_unsigned_aux w acc i l1 = .ok a →
      try_to_unsigned_aux w acc i (l1 ++ l2) = try_to_unsigned_aux w a (i + l1.length) l2 := by
  intro l1
  induction l1 with
  | nil =>
    intro l2 acc i a h
    simp only [try_to_unsigned_aux] at h
    cases h
    simp
  | cons d rest ih =>
    intro l2 acc i a h
    simp only [try_to_unsigned_aux] at h
    split at h
    · cases h
    split at h
    · cases h
    split at h
    · cases h
    split at h
    · cases h
    rename_i h1 h2 h3 h4
    rw [List.cons_append]
    simp only [try_to_unsigned_aux]
    rw [if_neg h1, if_neg h2, if_neg h3, if_neg h4, ih l2 (acc + d * 10 ^ i) (i + 1) a h]
    congr 1
    simp
    omega

theorem try_to_unsigned_aux_append_err (w : Nat) :
    ∀ (l1 l2 : List Nat) (acc i : Nat) (e : CrateError),
      try_to_unsigned_aux w acc i l1 = .error e →
      try_to_unsigned_aux w acc i (l1 ++ l2) = .error e := by
  intro l1
  induction l1 with
  | nil =>
    intro l2 acc i e h
    simp only [try_to_unsigned_aux] at h
    cases h
  | cons d rest ih =>
    intro l2 acc i e h
    simp only [try_to_unsigned_aux] at h
    rw [List.cons_append]
    simp only [try_to_unsigned_aux]
    split at h
    · rename_i h1; rw [if_pos h1]; exact h
    split at h
    · rename_i h1 h2; rw [if_neg h1, if_pos h2]; exact h
    split at h
    · rename_i h1 h2 h3; rw [if_neg h1, if_neg h2, if_pos h3]; exact h
    split at h
    · rename_i h1 h2 h3 h4; rw [if_neg h1, if_neg h2, if_neg h3, if_pos h4]; exact h
    rename_i h1 h2 h3 h4
    rw [if_neg h1, if_neg h2, if_neg h3, if_neg h4]
    exact ih l2 (acc + d * 10 ^ i) (i + 1) e h

theorem try_to_unsigned_aux_single_zero (w a m : Nat) (ha : a ≤ 2 ^ w - 1) :
    try_to_unsigned_aux w a m [0] =
      if m < 2 ^ 32 ∧ 10 ^ m ≤ 2 ^ w - 1 then .ok a else .error .Overflow := by
  simp only [try_to_unsigned_aux, zero_mul, Nat.add_zero]
  by_cases h1 : 2 ^ 32 ≤ m
  · rw [if_pos h1, if_neg (by omega)]
  · rw [if_neg h1]
    by_cases h2 : 2 ^ w - 1 < 10 ^ m
    · rw [if_pos h2, if_neg (by omega)]
    · rw [if_neg h2, if_neg (by omega), if_neg (by omega), if_pos (by omega)]

theorem try_to_unsigned_cons_zero (w : Nat) (ds : List Nat) (v : Nat) :
    try_to_unsigned w ⟨0 :: ds⟩ = .ok v ↔
      (try_to_unsigned w ⟨ds⟩ = .ok v ∧ ds.length < 2 ^ 32 ∧
        10 ^ ds.length ≤ 2 ^ w - 1) := by
  unfold try_to_unsigned
  simp only [List.reverse_cons]
  cases hres : try_to_unsigned_aux w 0 0 ds.reverse with
  | error e =>
    rw [try_to_unsigned_aux_append_err w ds.reverse [0] 0 0 e hres]
    constructor
    · intro h; cases h
    · rintro ⟨h, _⟩; cases h
  | ok a =>
    rw [try_to_unsigned_aux_append_ok w ds.reverse [0] 0 0 a hres]
    have ha : a ≤ 2 ^ w - 1 := try_to_unsigned_aux_le w ds.reverse 0 0 a (by omega) hres
    rw [try_to_unsigned_aux_single_zero w a (0 + ds.reverse.length) ha]
    simp only [List.length_reverse, Nat.zero_add]
    by_cases hc : ds.length < 2 ^ 32 ∧ 10 ^ ds.length ≤ 2 ^ w - 1
    · rw [if_pos hc]
      constructor
      · intro h; exact ⟨h, hc.1, hc.2⟩
      · rintro ⟨h, _, _⟩; exact h
    · rw [if_neg hc]
      constructor
      · intro h; cases h
      · rintro ⟨_, hx, hy⟩; exact absurd ⟨hx, hy⟩ hc

theorem two_le_two_pow {w : Nat} (hw : 0 < w) : 2 ≤ 2 ^ w := by
  calc 2 = 2 ^ 1 := by norm_num
    _ ≤ 2 ^ w := Nat.pow_le_pow_right (by decide) hw

theorem roundtrip_general {w n : Nat} (hw1 : 0 < w) (hw2 : w ≤ 2 ^ 32) (hn : n < 2 ^ w) :
    try_to_unsigned w (convert_from_positive n) = .ok n := by
  unfold try_to_unsigned convert_from_positive
  simp only [List.reverse_reverse]
  have hlen : (revDigits n).length ≤ w := revDigits_length_le hw1 hn
  have hne : revDigits n ≠ [] := revDigits_ne_nil n
  have hlen1 : 1 ≤ (revDigits n).length := List.length_pos.mpr hne
  have h2w : 2 ≤ 2 ^ w := two_le_two_pow hw1
  have hval : shiftValue 0 (revDigits n) = n := shiftValue_revDigits n
  have h := try_to_unsigned_aux_ok w (revDigits n) 0 0
    (by omega)
    (by
      intro j hj
      simp only [Nat.zero_add]
      rcases Nat.eq_zero_or_pos n with rfl | hpos
      · have : (revDigits 0).length = 1 := by rw [revDigits_zero]; rfl
        have hj0 : j = 0 := by omega
        subst hj0
        simpa using (by omega : 1 ≤ 2 ^ w - 1)
      · have hp : 10 ^ j ≤ 10 ^ ((revDigits n).length - 1) :=
          Nat.pow_le_pow_right (by decide) (by omega)
        have hq : 10 ^ ((revDigits n).length - 1) ≤ n :=
          ten_pow_pred_le (Nat.pos_iff_ne_zero.mp hpos)
        omega)
    (by omega)
  rw [h, hval]
  simp

theorem try_from_slice_ok_of_all : ∀ l : List Nat, (∀ x ∈ l, x ≤ 9) →
    try_from_slice l = .ok ⟨l⟩ := by
  intro l
  induction l with
  | nil => intro _; rfl
  | cons d rest ih =>
    intro hall
    have hd : ¬ 10 ≤ d := by have := hall d (by simp); omega
    simp only [try_from_slice, hd, if_false]
    rw [ih (fun x hx => hall x (by simp [hx]))]

theorem try_from_slice_ok_inv : ∀ (l : List Nat) (s : DigitSequence),
    try_from_slice l = .ok s → s = ⟨l⟩ ∧ ∀ x ∈ l, x ≤ 9 := by
  intro l
  induction l with
  | nil =>
    intro s h
    simp only [try_from_slice] at h
    cases h
    exact ⟨rfl, by simp⟩
  | cons d rest ih =>
    intro s h
    simp only [try_from_slice] at h
    split at h
    · cases h
    rename_i hd
    cases hrest : try_from_slice rest with
    | error e => rw [hrest] at h; cases h
    | ok s1 =>
      rw [hrest] at h
      cases h
      obtain ⟨hs1, hall⟩ := ih s1 hrest
      subst hs1
      refine ⟨rfl, ?_⟩
      intro x hx
      rcases List.mem_cons.mp hx with rfl | hx1
      · omega
      · exact hall x hx1

theorem try_from_slice_first_bad : ∀ (l : List Nat) (x : Nat),
    l.find? (fun d => decide (10 ≤ d)) = some x →
    try_from_slice l = .error (.NonDigitNumber x) := by
  intro l
  induction l with
  | nil => intro x h; simp at h
  | cons d rest ih =>
    intro x h
    by_cases hd : 10 ≤ d
    · rw [List.find?_cons_of_pos _ (by simpa using hd)] at h
      cases h
      simp only [try_from_slice, hd, if_true]
    · rw [List.find?_cons_of_neg _ (by simpa using hd)] at h
      simp only [try_from_slice, hd, if_false]
      rw [ih x h]

theorem from_str_ok_of_all : ∀ cs : List Char, (∀ c ∈ cs, 48 ≤ c.toNat ∧ c.toNat ≤ 57) →
    from_str cs = .ok ⟨cs.map (fun c => c.toNat - 48)⟩ := by
  intro cs
  induction cs with
  | nil => intro _; rfl
  | cons c rest ih =>
    intro hall
    have hc : char_to_digit10 c = some (c.toNat - 48) := by
      unfold char_to_digit10
      rw [if_pos (hall c (by simp))]
    simp only [from_str, hc]
    rw [ih (fun c1 hc1 => hall c1 (by simp [hc1]))]
    simp

theorem from_str_ok_inv : ∀ (cs : List Char) (s : DigitSequence),
    from_str cs = .ok s →
    s.digits = cs.map (fun c => c.toNat - 48) ∧ ∀ c ∈ cs, 48 ≤ c.toNat ∧ c.toNat ≤ 57 := by
  intro cs
  induction cs with
  | nil =>
    intro s h
    simp only [from_str] at h
    cases h
    exact ⟨rfl, by simp⟩
  | cons c rest ih =>
    intro s h
    simp only [from_str] at h
    cases hc : char_to_digit10 c with
    | none => rw [hc] at h; cases h
    | some d =>
      rw [hc] at h
      cases hrest : from_str rest with
      | error e => rw [hrest] at h; cases h
      | ok s1 =>
        rw [hrest] at h
        cases h
        obtain ⟨hs1, hall⟩ := ih s1 hrest
        have hcd : 48 ≤ c.toNat ∧ c.toNat ≤ 57 ∧ d = c.toNat - 48 := by
          unfold char_to_digit10 at hc
          split at hc
          · rename_i hin
            cases hc
            exact ⟨hin.1, hin.2, rfl⟩
          · cases hc
        refine ⟨?_, ?_⟩
        · simp only [List.map_cons, hs1, hcd.2.2]
        · intro c1 hc1
          rcases List.mem_cons.mp hc1 with rfl | hc2
          · exact ⟨hcd.1, hcd.2.1⟩
          · exact hall c1 hc2

theorem from_str_first_bad : ∀ (pre : List Char) (c : Char) (suf : List Char),
    (∀ c1 ∈ pre, 48 ≤ c1.toNat ∧ c1.toNat ≤ 57) →
    ¬(48 ≤ c.toNat ∧ c.toNat ≤ 57) →
    from_str (pre ++ c :: suf) = .error (.NonDigitChar c) := by
  intro pre
  induction pre with
  | nil =>
    intro c suf _ hbad
    have hc : char_to_digit10 c = none := by unfold char_to_digit10; rw [if_neg hbad]
    simp only [List.nil_append, from_str, hc]
  | cons p rest ih =>
    intro c suf hall hbad
    have hp : char_to_digit10 p = some (p.toNat - 48) := by
      unfold char_to_digit10
      rw [if_pos (hall p (by simp))]
    simp only [List.cons_append, from_str, hp, List.append_eq]
    rw [ih c suf (fun c1 hc1 => hall c1 (by simp [hc1])) hbad]

theorem lexSpec_cons_iff (x : Nat) (xs ys : List Nat) :
    LexSpec (x :: xs) (x :: ys) ↔ LexSpec xs ys := by
  constructor
  · rintro (⟨⟨t, ht⟩, hne⟩ | ⟨p, a, b, s1, s2, h1, h2, hab⟩)
    · rw [List.cons_append] at ht
      cases ht
      exact Or.inl ⟨⟨t, rfl⟩, fun he => hne (by rw [← he])⟩
    · cases p with
      | nil =>
        simp only [List.nil_append] at h1 h2
        cases h1
        cases h2
        omega
      | cons q p1 =>
        rw [List.cons_append] at h1 h2
        cases h1
        cases h2
        exact Or.inr ⟨p1, a, b, s1, s2, rfl, rfl, hab⟩
  · rintro (⟨⟨t, ht⟩, hne⟩ | ⟨p, a, b, s1, s2, h1, h2, hab⟩)
    · subst ht
      exact Or.inl ⟨⟨t, rfl⟩, fun he => hne (by injection he)⟩
    · subst h1
      subst h2
      exact Or.inr ⟨x :: p, a, b, s1, s2, rfl, rfl, hab⟩

theorem lexSpec_nil_nil : ¬ LexSpec [] [] := by
  rintro (⟨⟨t, ht⟩, hne⟩ | ⟨p, a, b, s1, s2, h1, h2, hab⟩)
  · exact hne rfl
  · exact List.cons_ne_nil a s1 (by simpa using h1.symm)

theorem lexSpec_cons_nil (a : Nat) (xs : List Nat) : ¬ LexSpec (a :: xs) [] := by
  rintro (⟨⟨t, ht⟩, hne⟩ | ⟨p, b, c, s1, s2, h1, h2, hbc⟩)
  · rw [List.cons_append] at ht
    cases ht
  · exact List.cons_ne_nil c s2 (by simpa using h2.symm)

theorem lexSpec_nil_cons (b : Nat) (ys : List Nat) : LexSpec [] (b :: ys) :=
  Or.inl ⟨⟨b :: ys, rfl⟩, by simp⟩

theorem lexSpec_cons_cons_of_lt {a b : Nat} (hab : a < b) (xs ys : List Nat) :
    LexSpec (a :: xs) (b :: ys) :=
  Or.inr ⟨[], a, b, xs, ys, rfl, rfl, hab⟩

theorem lexSpec_cons_cons_of_gt {a b : Nat} (hab : b < a) (xs ys : List Nat) :
    ¬ LexSpec (a :: xs) (b :: ys) := by
  rintro (⟨⟨t, ht⟩, hne⟩ | ⟨p, c, d, s1, s2, h1, h2, hcd⟩)
  · rw [List.cons_append] at ht
    injection ht with h1 h2
    omega
  · cases p with
    | nil =>
      simp only [List.nil_append] at h1 h2
      injection h1 with he1 _
      injection h2 with he2 _
      omega
    | cons q p1 =>
      rw [List.cons_append] at h1 h2
      injection h1 with he1 _
      injection h2 with he2 _
      omega

theorem digitsCompare_eq_iff : ∀ xs ys : List Nat, digitsCompare xs ys = .eq ↔ xs = ys := by
  intro xs
  induction xs with
  | nil =>
    intro ys
    cases ys with
    | nil => simp [digitsCompare]
    | cons b ys1 => simp [digitsCompare]
  | cons a xs1 ih =>
    intro ys
    cases ys with
    | nil => simp [digitsCompare]
    | cons b ys1 =>
      simp only [digitsCompare]
      rcases Nat.lt_trichotomy a b with hab | hab | hab
      · rw [Nat.compare_eq_lt.mpr hab]
        constructor
        · intro h; cases h
        · intro h
          injection h with h1 _
          omega
      · subst hab
        rw [Nat.compare_eq_eq.mpr rfl]
        rw [ih ys1]
        constructor
        · intro h; rw [h]
        · intro h; injection h
      · rw [Nat.compare_eq_gt.mpr hab]
        constructor
        · intro h; cases h
        · intro h
          injection h with h1 _
          omega

theorem digitsCompare_lt_iff : ∀ xs ys : List Nat, digitsCompare xs ys = .lt ↔ LexSpec xs ys := by
  intro xs
  induction xs with
  | nil =>
    intro ys
    cases ys with
    | nil =>
      simp only [digitsCompare]
      constructor
      · intro h; cases h
      · intro h; exact absurd h lexSpec_nil_nil
    | cons b ys1 =>
      exact ⟨fun _ => lexSpec_nil_cons b ys1, fun _ => rfl⟩
  | cons a xs1 ih =>
    intro ys
    cases ys with
    | nil =>
      simp only [digitsCompare]
      constructor
      · intro h; cases h
      · intro h; exact absurd h (lexSpec_cons_nil a xs1)
    | cons b ys1 =>
      simp only [digitsCompare]
      rcases Nat.lt_trichotomy a b with hab | hab | hab
      · rw [Nat.compare_eq_lt.mpr hab]
        exact ⟨fun _ => lexSpec_cons_cons_of_lt hab xs1 ys1, fun _ => rfl⟩
      · subst hab
        rw [Nat.compare_eq_eq.mpr rfl]
        rw [ih ys1, lexSpec_cons_iff]
      · rw [Nat.compare_eq_gt.mpr hab]
        constructor
        · intro h; cases h
        · intro h; exact absurd h (lexSpec_cons_cons_of_gt hab xs1 ys1)

theorem digitsCompare_swap : ∀ xs ys : List Nat,
    digitsCompare ys xs = (digitsCompare xs ys).swap := by
  intro xs
  induction xs with
  | nil =>
    intro ys
    cases ys with
    | nil => rfl
    | cons b ys1 => rfl
  | cons a xs1 ih =>
    intro ys
    cases ys with
    | nil => rfl
    | cons b ys1 =>
      simp only [digitsCompare]
      rcases Nat.lt_trichotomy a b with hab | hab | hab
      · rw [Nat.compare_eq_lt.mpr hab, Nat.compare_eq_gt.mpr hab]
        rfl
      · subst hab
        rw [Nat.compare_eq_eq.mpr rfl]
        exact ih ys1
      · rw [Nat.compare_eq_gt.mpr hab, Nat.compare_eq_lt.mpr hab]
        rfl

theorem digitsCompare_gt_iff (xs ys : List Nat) :
    digitsCompare xs ys = .gt ↔ LexSpec ys xs := by
  rw [← digitsCompare_lt_iff ys xs, digitsCompare_swap ys xs]
  cases digitsCompare ys xs <;> simp [Ordering.swap]

theorem natRepr_of_lt {d : Nat} (hd : d < 10) : natRepr d = [Nat.digitChar d] := by
  unfold natRepr
  rw [revDigits_unfold, Nat.div_eq_of_lt hd, if_pos rfl, Nat.mod_eq_of_lt hd]
  rfl

theorem renderDigits_eq_map : ∀ l : List Nat, (∀ d ∈ l, d < 10) →
    renderDigits l = l.map Nat.digitChar := by
  intro l
  induction l with
  | nil => intro _; rfl
  | cons d rest ih =>
    intro hall
    simp only [renderDigits, natRepr_of_lt (hall d (by simp)), List.map_cons]
    rw [ih (fun x hx => hall x (by simp [hx]))]
    rfl

theorem char_to_digit10_digitChar {d : Nat} (hd : d < 10) :
    char_to_digit10 (Nat.digitChar d) = some d := by
  interval_cases d <;> decide

theorem from_str_map_digitChar : ∀ l : List Nat, (∀ d ∈ l, d < 10) →
    from_str (l.map Nat.digitChar) = .ok ⟨l⟩ := by
  intro l
  induction l with
  | nil => intro _; rfl
  | cons d rest ih =>
    intro hall
    simp only [List.map_cons, from_str, char_to_digit10_digitChar (hall d (by simp))]
    rw [ih (fun x hx => hall x (by simp [hx]))]

theorem digitsValue_eq (l : List Nat) : digitsValue l = Nat.ofDigits 10 l.reverse := by
  induction l using List.reverseRecOn with
  | nil => rfl
  | append_singleton l d ih =>
    rw [digitsValue, List.foldl_append]
    have h1 : List.foldl (fun a d => 10 * a + d) 0 l = digitsValue l := rfl
    rw [h1, List.reverse_append]
    simp only [List.reverse_cons, List.reverse_nil, List.nil_append, List.singleton_append,
      Nat.ofDigits_cons, ih]
    simp [List.foldl]
    ring

theorem wellFormed_convert (n : Nat) : wellFormed (convert_from_positive n) := by
  intro d hd
  simp only [convert_from_positive, List.mem_reverse] at hd
  exact mem_revDigits_lt hd

theorem wellFormed_slice {l : List Nat} {s : DigitSequence} (h : try_from_slice l = .ok s) :
    wellFormed s := by
  obtain ⟨rfl, hall⟩ := try_from_slice_ok_inv l s h
  intro d hd
  have := hall d hd
  omega

theorem wellFormed_from_str {cs : List Char} {s : DigitSequence} (h : from_str cs = .ok s) :
    wellFormed s := by
  obtain ⟨hdig, hall⟩ := from_str_ok_inv cs s h
  intro d hd
  rw [hdig] at hd
  obtain ⟨c, hc, rfl⟩ := List.mem_map.mp hd
  have := hall c hc
  omega

theorem char_digit_bound_iff (c : Char) :
    ('0' ≤ c ∧ c ≤ '9') ↔ (48 ≤ c.toNat ∧ c.toNat ≤ 57) :=
  ⟨fun h => ⟨h.1, h.2⟩, fun h => ⟨h.1, h.2⟩⟩

/-- C1: for every unsigned width among `u8, u16, u32, u64, u128` (with
`usize` the 64-bit case) and every value `n` of that width, decomposing `n`
into a `DigitSequence` and reconstructing an integer of the same width
succeeds and returns exactly `n`. -/
theorem claim_c1_roundtrip :
    ∀ w : Nat, (w = 8 ∨ w = 16 ∨ w = 32 ∨ w = 64 ∨ w = 128) →
    ∀ n : Nat, n < 2 ^ w → try_to_unsigned w (convert_from_positive n) = .ok n := by
  intro w hw n hn
  have hw1 : 0 < w := by rcases hw with rfl | rfl | rfl | rfl | rfl <;> decide
  have hw2 : w ≤ 2 ^ 32 := by rcases hw with rfl | rfl | rfl | rfl | rfl <;> decide
  exact roundtrip_general hw1 hw2 hn

/-- Witness for C1 at width `u8` and `n = 107`. -/
theorem claim_c1_roundtrip_witness :
    (8 = 8 ∨ 8 = 16 ∨ 8 = 32 ∨ 8 = 64 ∨ 8 = 128) ∧ 107 < 2 ^ 8 ∧
      try_to_unsigned 8 (convert_from_positive 107) = .ok 107 :=
  ⟨Or.inl rfl, by decide, claim_c1_roundtrip 8 (Or.inl rfl) 107 (by decide)⟩

/-- C2 (amended): leading zeros never change the numeric value of a
successful reconstruction — e.g. `[0,3,0]` reconstructs to `30` — but they
CAN by themselves cause `Overflow`: prepending one zero digit to `ds`
preserves success (with the same value) exactly when the zero's position
index fits in `u32` and `10 ^ position` still fits the target width,
because `checked_pow` runs at every position before the digit multiplies
it; otherwise the zero-extended sequence fails with `Overflow`. -/
theorem claim_c2_leading_zeros :
    (∀ (w : Nat) (ds : List Nat) (v : Nat),
      try_to_unsigned w ⟨0 :: ds⟩ = .ok v ↔
        (try_to_unsigned w ⟨ds⟩ = .ok v ∧ ds.length < 2 ^ 32 ∧
          10 ^ ds.length ≤ 2 ^ w - 1)) ∧
    try_to_unsigned 8 ⟨[0, 3, 0]⟩ = .ok 30 ∧
    try_to_unsigned 128 ⟨[0, 3, 0]⟩ = .ok 30 :=
  ⟨try_to_unsigned_cons_zero, by decide, by decide⟩

/-- Witness for C2 (amended): at width `u8`, prepending a zero to `[3]`
keeps the reconstruction value `3`. -/
theorem claim_c2_leading_zeros_witness :
    try_to_unsigned 8 ⟨[0, 3]⟩ = .ok 3 :=
  (claim_c2_leading_zeros.1 8 [3] 3).mpr ⟨by decide, by decide, by decide⟩

/-- Counterexample to C2 as stated: at target width `u8`, the sequence `[3]`
reconstructs to `3`, but prepending zero digits — `[0,0,0,3]` — makes the
reconstruction fail with `Overflow` (the zero at position 3 forces
`10.checked_pow(3)`, and `1000` does not fit in `u8`), so prepending zeros
does change whether reconstruction succeeds. -/
theorem claim_c2_counterexample :
    try_to_unsigned 8 ⟨[3]⟩ = .ok 3 ∧
    try_to_unsigned 8 ⟨[0, 0, 0, 3]⟩ = .error .Overflow := by
  exact ⟨by decide, by decide⟩

/-- C3: reconstructing `u128` from the `DigitSequence` parsed from the text
denoting `2 ^ 128` fails with `Overflow`, while reconstructing `u128` from
the digit sequence of `u128::MAX = 2 ^ 128 - 1` succeeds and returns exactly
that value. -/
theorem claim_c3_overflow_boundary :
    from_str "340282366920938463463374607431768211456".toList =
      .ok ⟨[3, 4, 0, 2, 8, 2, 3, 6, 6, 9, 2, 0, 9, 3, 8, 4, 6, 3, 4, 6, 3, 3, 7, 4, 6,
        0, 7, 4, 3, 1, 7, 6, 8, 2, 1, 1, 4, 5, 6]⟩ ∧
    try_to_unsigned 128 ⟨[3, 4, 0, 2, 8, 2, 3, 6, 6, 9, 2, 0, 9, 3, 8, 4, 6, 3, 4, 6,
      3, 3, 7, 4, 6, 0, 7, 4, 3, 1, 7, 6, 8, 2, 1, 1, 4, 5, 6]⟩ = .error .Overflow ∧
    try_to_unsigned 128 (convert_from_positive 340282366920938463463374607431768211455) =
      .ok 340282366920938463463374607431768211455 :=
  ⟨by decide, by decide, by decide⟩

/-- C10: reconstructing an integer from the empty `DigitSequence` succeeds
with `0` for every unsigned target width (hence for `u8, u16, u32, u64,
u128, usize` in particular); the empty sequence never causes `Overflow`. -/
theorem claim_c10_empty_sequence :
    ∀ w : Nat, try_to_unsigned w ⟨[]⟩ = .ok 0 := by
  intro w
  rfl

/-- C4: for every finite byte sequence (array, slice, vector — all delegate
to the slice validator), conversion succeeds iff every element is in
`[0, 9]` (the empty source yields the empty sequence); on success the
digits are exactly the source, order and length preserved; on failure the
error is `NonDigitNumber` carrying the leftmost element `≥ 10` (widened
losslessly). -/
theorem claim_c4_byte_validation : ∀ l : List Nat, (∀ x ∈ l, x < 256) →
    (try_from_slice l = .ok ⟨l⟩ ↔ ∀ x ∈ l, x ≤ 9) ∧
    (∀ s, try_from_slice l = .ok s → s = ⟨l⟩) ∧
    (∀ x, l.find? (fun d => decide (10 ≤ d)) = some x →
      try_from_slice l = .error (.NonDigitNumber x)) := by
  intro l _
  refine ⟨⟨fun h => (try_from_slice_ok_inv l ⟨l⟩ h).2,
    fun h => try_from_slice_ok_of_all l h⟩, ?_, ?_⟩
  · intro s h
    exact (try_from_slice_ok_inv l s h).1
  · intro x h
    exact try_from_slice_first_bad l x h

/-- Witness for C4: `[9, 3, 18]` is rejected with `NonDigitNumber 18`, and
`[9, 2]` is accepted unchanged. -/
theorem claim_c4_byte_validation_witness :
    (∀ x ∈ [9, 3, 18], x < 256) ∧
    try_from_slice [9, 3, 18] = .error (.NonDigitNumber 18) ∧
    try_from_slice [9, 2] = .ok ⟨[9, 2]⟩ :=
  ⟨by decide, (claim_c4_byte_validation [9, 3, 18] (by decide)).2.2 18 (by decide),
    (claim_c4_byte_validation [9, 2] (by decide)).1.mpr (by decide)⟩

/-- C5: parsing a string succeeds iff every character is one of the ten
decimal digit characters `'0'..'9'` (the empty string yields the empty
sequence), in which case the digits are the characters' values in order;
otherwise it fails with `NonDigitChar` carrying the leftmost non-digit
character; there is no whitespace trimming and no sign handling (a leading
`'-'` is rejected as a non-digit character). -/
theorem claim_c5_string_parsing :
    (∀ cs : List Char,
      ((∀ c ∈ cs, '0' ≤ c ∧ c ≤ '9') →
        from_str cs = .ok ⟨cs.map (fun c => c.toNat - 48)⟩) ∧
      ((∃ s, from_str cs = .ok s) → ∀ c ∈ cs, '0' ≤ c ∧ c ≤ '9') ∧
      (∀ pre c suf, cs = pre ++ c :: suf → (∀ c1 ∈ pre, '0' ≤ c1 ∧ c1 ≤ '9') →
        ¬('0' ≤ c ∧ c ≤ '9') → from_str cs = .error (.NonDigitChar c))) ∧
    from_str "-89".toList = .error (.NonDigitChar '-') ∧
    from_str " 12".toList = .error (.NonDigitChar ' ') ∧
    from_str "".toList = .ok ⟨[]⟩ := by
  refine ⟨?_, by decide, by decide, by decide⟩
  intro cs
  refine ⟨?_, ?_, ?_⟩
  · intro hall
    exact from_str_ok_of_all cs (fun c hc => (char_digit_bound_iff c).mp (hall c hc))
  · rintro ⟨s, hs⟩ c hc
    exact (char_digit_bound_iff c).mpr ((from_str_ok_inv cs s hs).2 c hc)
  · rintro pre c suf rfl hpre hbad
    exact from_str_first_bad pre c suf
      (fun c1 h1 => (char_digit_bound_iff c1).mp (hpre c1 h1))
      (fun h => hbad ((char_digit_bound_iff c).mpr h))

/-- Witness for C5: `"90"` parses to `[9, 0]` and `"90xyz"` is rejected at
`'x'`. -/
theorem claim_c5_string_parsing_witness :
    ((∀ c ∈ "90".toList, '0' ≤ c ∧ c ≤ '9') ∧
      from_str "90".toList = .ok ⟨"90".toList.map (fun c => c.toNat - 48)⟩) ∧
    from_str "90xyz".toList = .error (.NonDigitChar 'x') :=
  ⟨⟨by decide, (claim_c5_string_parsing.1 "90".toList).1 (by decide)⟩,
    (claim_c5_string_parsing.1 "90xyz".toList).2.2 ['9', '0'] 'x' ['y', 'z']
      (by decide) (by decide) (by decide)⟩

/-- C6: converting a signed value (any width, losslessly widened to `Int`)
fails with `NegativeNumber` of the value exactly when the value is
negative; a non-negative value succeeds and produces exactly the sequence
that unsigned decomposition of the same numeric value produces; in
particular `-4` fails with `NegativeNumber (-4)`. -/
theorem claim_c6_signed_conversion :
    (∀ v : Int,
      (v < 0 → try_from_signed v = .error (.NegativeNumber v)) ∧
      (0 ≤ v → try_from_signed v = .ok (convert_from_positive v.toNat))) ∧
    try_from_signed (-4) = .error (.NegativeNumber (-4)) := by
  refine ⟨?_, by decide⟩
  intro v
  constructor
  · intro hv
    unfold try_from_signed
    rw [if_pos hv]
  · intro hv
    unfold try_from_signed
    rw [if_neg (by omega)]

/-- Witness for C6 at `v = -4` and `v = 107`. -/
theorem claim_c6_signed_conversion_witness :
    ((-4 : Int) < 0 ∧ try_from_signed (-4) = .error (.NegativeNumber (-4))) ∧
    ((0 : Int) ≤ 107 ∧ try_from_signed 107 = .ok (convert_from_positive (107 : Int).toNat)) :=
  ⟨⟨by decide, (claim_c6_signed_conversion.1 (-4)).1 (by decide)⟩,
    ⟨by decide, (claim_c6_signed_conversion.1 107).2 (by decide)⟩⟩

/-- C7: unsigned decomposition always succeeds, its digits are all in
`[0, 9]`, their positional value is exactly `n`, the base-10 digits appear
most-significant first (the reverse of the canonical little-endian digit
expansion), there are no leading zeros for `n ≠ 0`, and `n = 0` yields
exactly `[0]` (length 1, never empty). -/
theorem claim_c7_decomposition : ∀ n : Nat,
    (convert_from_positive n).digits ≠ [] ∧
    (∀ d ∈ (convert_from_positive n).digits, d < 10) ∧
    digitsValue (convert_from_positive n).digits = n ∧
    (n = 0 → (convert_from_positive n).digits = [0]) ∧
    (n ≠ 0 → (convert_from_positive n).digits = (Nat.digits 10 n).reverse ∧
      (convert_from_positive n).digits.head? ≠ some 0) := by
  intro n
  refine ⟨?_, fun d hd => wellFormed_convert n d hd, ?_, ?_, ?_⟩
  · simp only [convert_from_positive]
    simp only [ne_eq, List.reverse_eq_nil_iff]
    exact revDigits_ne_nil n
  · simp only [convert_from_positive]
    rw [digitsValue_eq, List.reverse_reverse]
    have h := shiftValue_revDigits n
    rwa [shiftValue_eq, pow_zero, one_mul] at h
  · intro hn
    subst hn
    simp only [convert_from_positive, revDigits_zero]
    rfl
  · intro hn
    have he : (convert_from_positive n).digits = (Nat.digits 10 n).reverse := by
      simp only [convert_from_positive]
      rw [revDigits_eq_digits hn]
    refine ⟨he, ?_⟩
    rw [he, List.head?_reverse]
    have hne : Nat.digits 10 n ≠ [] := Nat.digits_ne_nil_iff_ne_zero.mpr hn
    rw [List.getLast?_eq_getLast _ hne]
    intro hcontra
    injection hcontra with hlast
    exact Nat.getLast_digit_ne_zero 10 hn hlast

/-- Witness for C7 at `n = 0` and `n = 107`. -/
theorem claim_c7_decomposition_witness :
    (convert_from_positive 0).digits = [0] ∧
    (convert_from_positive 107).digits = (Nat.digits 10 107).reverse :=
  ⟨(claim_c7_decomposition 0).2.2.2.1 rfl,
    ((claim_c7_decomposition 107).2.2.2.2 (by decide)).1⟩

/-- C8: two `DigitSequence`s are equal iff their digit lists are identical
(same length, same digit-by-digit content), and the derived ordering is
lexicographic over the stored digits: a strict prefix is smaller, otherwise
the first differing digit decides (`LexSpec`); in particular `[9] > [4]`
and `[9] < [9,7]`, and comparison is structural, not numeric — `[0,9]` and
`[9]` have the same numeric value yet `[0,9] < [9]`. -/
theorem claim_c8_ordering :
    (∀ a b : DigitSequence, seqCompare a b = .eq ↔ a = b) ∧
    (∀ a b : DigitSequence, seqCompare a b = .lt ↔ LexSpec a.digits b.digits) ∧
    (∀ a b : DigitSequence, seqCompare a b = .gt ↔ LexSpec b.digits a.digits) ∧
    seqCompare ⟨[9]⟩ ⟨[4]⟩ = .gt ∧
    seqCompare ⟨[9]⟩ ⟨[9, 7]⟩ = .lt ∧
    (seqCompare ⟨[0, 9]⟩ ⟨[9]⟩ = .lt ∧ digitsValue [0, 9] = digitsValue [9]) := by
  refine ⟨?_, ?_, ?_, by decide, by decide, by decide, by decide⟩
  · rintro ⟨xs⟩ ⟨ys⟩
    rw [seqCompare, digitsCompare_eq_iff]
    exact ⟨fun h => congrArg DigitSequence.mk h, fun h => congrArg DigitSequence.digits h⟩
  · rintro ⟨xs⟩ ⟨ys⟩
    exact digitsCompare_lt_iff xs ys
  · rintro ⟨xs⟩ ⟨ys⟩
    exact digitsCompare_gt_iff xs ys

/-- Witness for C8: `[9] < [9,7]` is an instance of the prefix case of the
lexicographic specification. -/
theorem claim_c8_ordering_witness :
    seqCompare ⟨[9]⟩ ⟨[9, 7]⟩ = .lt :=
  (claim_c8_ordering.2.1 ⟨[9]⟩ ⟨[9, 7]⟩).mpr
    (Or.inl ⟨⟨[7], rfl⟩, by decide⟩)

/-- C9: rendering writes the digits' characters in stored order with no
separators (the empty sequence renders as the empty string), and for every
well-formed sequence — in particular any sequence produced by byte
validation, unsigned decomposition, or string parsing, all of which are
proved well-formed here — parsing the rendered text yields back exactly
the same sequence. -/
theorem claim_c9_render_roundtrip :
    (∀ s : DigitSequence, wellFormed s →
      render s = s.digits.map Nat.digitChar ∧ from_str (render s) = .ok s) ∧
    render ⟨[]⟩ = [] ∧
    (∀ (l : List Nat) (s : DigitSequence), try_from_slice l = .ok s → wellFormed s) ∧
    (∀ n : Nat, wellFormed (convert_from_positive n)) ∧
    (∀ (cs : List Char) (s : DigitSequence), from_str cs = .ok s → wellFormed s) := by
  refine ⟨?_, rfl, fun l s h => wellFormed_slice h, wellFormed_convert,
    fun cs s h => wellFormed_from_str h⟩
  rintro ⟨l⟩ hwf
  have hmap : render ⟨l⟩ = l.map Nat.digitChar := renderDigits_eq_map l hwf
  exact ⟨hmap, by rw [hmap]; exact from_str_map_digitChar l hwf⟩

/-- Witness for C9: the sequence `[0, 3, 0]` is well-formed, renders as
`"030"`, and parses back to itself. -/
theorem claim_c9_render_roundtrip_witness :
    wellFormed ⟨[0, 3, 0]⟩ ∧
    render ⟨[0, 3, 0]⟩ = "030".toList ∧
    from_str (render ⟨[0, 3, 0]⟩) = .ok ⟨[0, 3, 0]⟩ := by
  have hwf : wellFormed (⟨[0, 3, 0]⟩ : DigitSequence) := by
    intro d hd
    simp only [List.mem_cons, List.not_mem_nil, or_false] at hd
    rcases hd with rfl | rfl | rfl <;> decide
  have h := claim_c9_render_roundtrip.1 ⟨[0, 3, 0]⟩ hwf
  exact ⟨hwf, by rw [h.1]; decide, h.2⟩

end DigitSeq
